import Mathlib

/-!
# Verification of the `string-interner` crate (`src/lib.rs`)

Shallow embedding of `StringInterner<Sym, H>` from `src/lib.rs`.

Modelling choices:
* `Sym` is instantiated with `Nat`, modelling `DefaultStringInterner = StringInterner<usize>`,
  where `Symbol::from_usize` / `Symbol::to_usize` are the identity.
* `values : Vec<Box<str>>` becomes `values : List String` (position = symbol index).
* `map : HashMap<InternalStrRef, Sym, H>` becomes an association list
  `List (String × Nat)` keyed by string *content*: `InternalStrRef`'s `Hash` and
  `PartialEq` delegate to the referenced `str` content (lib.rs lines 126-136), so the
  `HashMap` behaves observably as a finite map from string content to symbols.
  `HashMap::get` is first-match lookup, `HashMap::insert` of an absent key adds an entry
  (the interner only ever inserts keys that are absent, so cons is extensionally faithful).
* The `BuildHasher` `H` only affects the bucket organisation of the `HashMap`, never the
  result of `get`/`insert`; it is modelled as an opaque `hasher : Nat` seed carried in the
  state and never read by any operation.
* Capacity hints (`with_capacity`, `with_capacity_and_hasher`) have no observable effect
  and are modelled as constructing the same empty state.
-/

/-- Lookup in the content-keyed reverse map, modelling
`HashMap::get(&InternalStrRef)` where key equality is string-content equality. -/
def mapGet (m : List (String × Nat)) (k : String) : Option Nat :=
  (m.find? (fun p => p.1 == k)).map Prod.snd

/-- The interner state: the reverse map and the owned text storage from
`struct StringInterner` (lib.rs lines 152-158), plus the opaque hasher seed
standing for the `BuildHasher` inside the `HashMap`. -/
structure StringInterner where
  hasher : Nat
  map    : List (String × Nat)
  values : List String
  deriving Repr, DecidableEq

namespace StringInterner

/-- Models `StringInterner::new` (lib.rs 171-176): empty map, empty storage. -/
def new : StringInterner := ⟨0, [], []⟩

/-- Models `StringInterner::with_capacity` (lib.rs 180-185): capacity is a
non-observable hint, the state is empty. -/
def with_capacity (_cap : Nat) : StringInterner := ⟨0, [], []⟩

/-- Models `StringInterner::with_hasher` (lib.rs 195-200): empty state carrying the
given hash builder. -/
def with_hasher (h : Nat) : StringInterner := ⟨h, [], []⟩

/-- Models `StringInterner::with_capacity_and_hasher` (lib.rs 204-209). -/
def with_capacity_and_hasher (_cap : Nat) (h : Nat) : StringInterner := ⟨h, [], []⟩

/-- Models `StringInterner::len` (lib.rs 273-275): `self.values.len()`. -/
def len (st : StringInterner) : Nat := st.values.length

/-- Models `StringInterner::make_symbol` (lib.rs 241-243): `Sym::from_usize(self.len())`. -/
def make_symbol (st : StringInterner) : Nat := st.len

/-- Models `StringInterner::intern` (lib.rs 230-238): allocate the next symbol, push the
string into storage, insert the content-keyed reverse entry. Returns the new
symbol together with the updated state (Rust mutates `&mut self`). -/
def intern (st : StringInterner) (new_val : String) : Nat × StringInterner :=
  let new_id := st.make_symbol
  (new_id, ⟨st.hasher, (new_val, new_id) :: st.map, st.values ++ [new_val]⟩)

/-- Models `StringInterner::get_or_intern` (lib.rs 218-225): consult the reverse map,
return the existing symbol if found, otherwise fall back to `intern`. -/
def get_or_intern (st : StringInterner) (val : String) : Nat × StringInterner :=
  match mapGet st.map val with
  | some sym => (sym, st)
  | none     => st.intern val

/-- Models `StringInterner::resolve` (lib.rs 248-252): checked indexed lookup into
`values`, `None` when out of range. -/
def resolve (st : StringInterner) (symbol : Nat) : Option String :=
  st.values.get? symbol

/-- Models `StringInterner::get` (lib.rs 263-269): non-mutating reverse lookup. -/
def get (st : StringInterner) (val : String) : Option Nat :=
  mapGet st.map val

/-- Models `StringInterner::is_empty` (lib.rs 279-281): `self.len() == 0`. -/
def is_empty (st : StringInterner) : Bool := st.len == 0

/-- Models `StringInterner::clear` (lib.rs 299-302): clears the map and the storage
(the `HashMap` keeps its hash builder). -/
def clear (st : StringInterner) : StringInterner := ⟨st.hasher, [], []⟩

/-- Models `StringInterner::iter` / `Iter` (lib.rs 317-332): `values.iter().enumerate()`
mapped to `(Sym::from_usize(num), str)` pairs, i.e. the enumerated storage. -/
def iter (st : StringInterner) : List (Nat × String) := st.values.enum

/-- Models `StringInterner::iter_values` / `Values` (lib.rs 353-371): the stored
strings in storage order. -/
def iter_values (st : StringInterner) : List String := st.values

/-- Run a sequence of `get_or_intern` calls, collecting the returned symbols
(the driver pattern of the crate's doc example, lib.rs 16-32). -/
def runAll : StringInterner → List String → List Nat × StringInterner
  | st, [] => ([], st)
  | st, s :: ss =>
    let r := st.get_or_intern s
    let rest := r.2.runAll ss
    (r.1 :: rest.1, rest.2)

/-- The derived `PartialEq` on `StringInterner` (lib.rs 151): fields `map` and
`values` compared. `HashMap` equality is content equality (same size and every
key of one maps to the same value in the other), independent of hasher state;
`InternalStrRef` equality is string-content equality (lib.rs 132-136). -/
def interEq (a b : StringInterner) : Prop :=
  (a.map.length = b.map.length ∧ ∀ p ∈ a.map, mapGet b.map p.1 = some p.2)
  ∧ a.values = b.values

/-- States reachable by the public constructors and mutating operations
(`get`, `resolve`, `len`, `is_empty`, `iter`, `iter_values` take `&self`
and leave the state unchanged). -/
inductive Reachable : StringInterner → Prop
  | new : Reachable StringInterner.new
  | with_capacity (c : Nat) : Reachable (StringInterner.with_capacity c)
  | with_hasher (h : Nat) : Reachable (StringInterner.with_hasher h)
  | with_capacity_and_hasher (c h : Nat) :
      Reachable (StringInterner.with_capacity_and_hasher c h)
  | get_or_intern (st : StringInterner) (s : String) :
      Reachable st → Reachable (st.get_or_intern s).2
  | clear (st : StringInterner) : Reachable st → Reachable st.clear

/-- The bidirectional-map invariant: map and storage have the same size, every
stored string looks up to its own position, and every map entry points at a
storage slot holding its key. -/
def Inv (st : StringInterner) : Prop :=
  st.map.length = st.values.length
  ∧ (∀ i : Fin st.values.length, mapGet st.map (st.values.get i) = some i.val)
  ∧ (∀ p ∈ st.map, st.values.get? p.2 = some p.1)

instance (st : StringInterner) : Decidable (Inv st) := by
  unfold Inv; infer_instance

/-- The doc-example insertion sequence (lib.rs 17-24). -/
def scenarioList : List String :=
  ["Elephant", "Tiger", "Horse", "Tiger", "Tiger", "Mouse", "Horse", "Tiger"]

end StringInterner

/-! ## Basic lemmas about the reverse map -/

lemma mapGet_nil (s : String) : mapGet [] s = none := rfl

lemma mapGet_cons (k : String) (v : Nat) (m : List (String × Nat)) (s : String) :
    mapGet ((k, v) :: m) s = if k = s then some v else mapGet m s := by
  by_cases h : k = s
  · subst h; simp [mapGet, List.find?]
  · have hb : (k == s) = false := beq_eq_false_iff_ne.mpr h
    simp [mapGet, List.find?, hb, h]

lemma mapGet_mem {m : List (String × Nat)} {s : String} {i : Nat}
    (h : mapGet m s = some i) : (s, i) ∈ m := by
  unfold mapGet at h
  obtain ⟨p, hp, hp2⟩ := Option.map_eq_some'.mp h
  have hmem := List.mem_of_find?_eq_some hp
  have hkey : p.1 = s := by simpa using List.find?_some hp
  have : p = (s, i) := by
    cases p; simp_all
  rwa [this] at hmem

namespace StringInterner

/-! ## Unfolding lemmas for `get_or_intern` -/

lemma get_or_intern_of_found {st : StringInterner} {s : String} {sym : Nat}
    (h : mapGet st.map s = some sym) : st.get_or_intern s = (sym, st) := by
  simp [get_or_intern, h]

lemma get_or_intern_of_absent {st : StringInterner} {s : String}
    (h : mapGet st.map s = none) :
    st.get_or_intern s =
      (st.len, ⟨st.hasher, (s, st.len) :: st.map, st.values ++ [s]⟩) := by
  simp [get_or_intern, h, intern, make_symbol]

/-! ## The invariant, restated through `List.get?` -/

lemma Inv.length_eq {st : StringInterner} (h : st.Inv) :
    st.map.length = st.values.length := h.1

lemma Inv.get?_mapGet {st : StringInterner} (h : st.Inv) {i : Nat} {v : String}
    (hget : st.values.get? i = some v) : mapGet st.map v = some i := by
  obtain ⟨hi, hv⟩ := List.get?_eq_some.mp hget
  have := h.2.1 ⟨i, hi⟩
  rwa [hv] at this

lemma Inv.mapGet_get? {st : StringInterner} (h : st.Inv) {s : String} {i : Nat}
    (hmap : mapGet st.map s = some i) : st.values.get? i = some s :=
  h.2.2 _ (mapGet_mem hmap)

lemma inv_empty (ha : Nat) : Inv ⟨ha, [], []⟩ := by
  refine ⟨rfl, ?_, ?_⟩
  · intro i; exact absurd i.isLt (by simp)
  · intro p hp; simp at hp

/-- Operation `get_or_intern` preserves the bidirectional-map invariant. -/
lemma Inv.get_or_intern {st : StringInterner} (h : st.Inv) (s : String) :
    ((st.get_or_intern s).2).Inv := by
  cases hfind : mapGet st.map s with
  | some sym => rw [get_or_intern_of_found hfind]; exact h
  | none =>
    rw [get_or_intern_of_absent hfind]
    have hlen : st.map.length = st.values.length := h.1
    refine ⟨by simp [hlen], ?_, ?_⟩
    · intro i
      have hi := i.isLt
      simp only [List.length_append, List.length_singleton] at hi
      rcases Nat.lt_succ_iff_lt_or_eq.mp hi with hlt | heq
      · have hget : (st.values ++ [s]).get i = st.values.get ⟨i.val, hlt⟩ := by
          rw [← Option.some_inj, ← List.get?_eq_get, ← List.get?_eq_get,
            List.get?_append hlt]
        have hne : s ≠ st.values.get ⟨i.val, hlt⟩ := by
          intro hcontra
          have := h.2.1 ⟨i.val, hlt⟩
          rw [← hcontra, hfind] at this
          exact Option.noConfusion this
        rw [hget, mapGet_cons, if_neg hne]
        exact h.2.1 ⟨i.val, hlt⟩
      · have hget : (st.values ++ [s]).get i = s := by
          rw [← Option.some_inj, ← List.get?_eq_get, heq,
            List.get?_concat_length]
        rw [hget, mapGet_cons, if_pos rfl]
        simp [len, heq]
    · intro p hp
      rcases List.mem_cons.mp hp with hhead | htail
      · subst hhead; simp [len, List.get?_concat_length]
      · have := h.2.2 p htail
        obtain ⟨hi, _⟩ := List.get?_eq_some.mp this
        rw [List.get?_append hi]
        exact this

/-- Operation `clear` re-establishes the invariant. -/
lemma Inv.clear (st : StringInterner) : st.clear.Inv := inv_empty st.hasher

/-- Every reachable state satisfies the invariant. -/
lemma Reachable.inv {st : StringInterner} (h : st.Reachable) : st.Inv := by
  induction h with
  | new => exact inv_empty 0
  | with_capacity c => exact inv_empty 0
  | with_hasher hh => exact inv_empty hh
  | with_capacity_and_hasher c hh => exact inv_empty hh
  | get_or_intern st s _ ih => exact ih.get_or_intern s
  | clear st _ _ => exact Inv.clear st

/-! ## Monotonicity: `get_or_intern` never disturbs existing entries -/

lemma resolve_mono {st : StringInterner} {i : Nat} {v : String}
    (h : st.resolve i = some v) (s : String) :
    ((st.get_or_intern s).2).resolve i = some v := by
  cases hfind : mapGet st.map s with
  | some sym => rw [get_or_intern_of_found hfind]; exact h
  | none =>
    rw [get_or_intern_of_absent hfind]
    unfold resolve at h ⊢
    obtain ⟨hi, _⟩ := List.get?_eq_some.mp h
    rw [List.get?_append hi]
    exact h

lemma get_mono {st : StringInterner} {t : String} {sym : Nat}
    (h : st.get t = some sym) (s : String) :
    ((st.get_or_intern s).2).get t = some sym := by
  cases hfind : mapGet st.map s with
  | some sym' => rw [get_or_intern_of_found hfind]; exact h
  | none =>
    rw [get_or_intern_of_absent hfind]
    unfold get at h ⊢
    rw [mapGet_cons]
    have hne : s ≠ t := by
      intro hcontra; rw [hcontra] at hfind
      rw [hfind] at h; exact Option.noConfusion h
    rw [if_neg hne]
    exact h

lemma resolve_mono_runAll {st : StringInterner} {i : Nat} {v : String}
    (h : st.resolve i = some v) (ss : List String) :
    ((st.runAll ss).2).resolve i = some v := by
  induction ss generalizing st with
  | nil => exact h
  | cons s ss ih => exact ih (resolve_mono h s)

lemma get_mono_runAll {st : StringInterner} {t : String} {sym : Nat}
    (h : st.get t = some sym) (ss : List String) :
    ((st.runAll ss).2).get t = some sym := by
  induction ss generalizing st with
  | nil => exact h
  | cons s ss ih => exact ih (get_mono h s)

/-- After `get_or_intern s`, the reverse map sends `s` to the returned symbol. -/
lemma get_after_get_or_intern (st : StringInterner) (s : String) :
    ((st.get_or_intern s).2).get s = some (st.get_or_intern s).1 := by
  cases hfind : mapGet st.map s with
  | some sym => rw [get_or_intern_of_found hfind]; exact hfind
  | none =>
    rw [get_or_intern_of_absent hfind]
    unfold get
    rw [mapGet_cons, if_pos rfl]

/-- After `get_or_intern s`, resolving the returned symbol yields `s`. -/
lemma resolve_after_get_or_intern {st : StringInterner} (h : st.Inv) (s : String) :
    ((st.get_or_intern s).2).resolve (st.get_or_intern s).1 = some s := by
  cases hfind : mapGet st.map s with
  | some sym =>
    rw [get_or_intern_of_found hfind]
    exact h.mapGet_get? hfind
  | none =>
    rw [get_or_intern_of_absent hfind]
    unfold resolve
    exact List.get?_concat_length _ _

/-! ## Claim theorems -/

/-- C1: for every string `s`, if `get_or_intern s` returns symbol `sym`, then
`resolve sym` returns `s`, and this continues to hold after any later sequence
of `get_or_intern` calls on the same interner: a symbol is never reassigned to
different content while it remains valid. -/
theorem getOrIntern_resolve_roundtrip (st : StringInterner) (s : String)
    (ss : List String) (hst : st.Inv) :
    ((((st.get_or_intern s).2).runAll ss).2).resolve (st.get_or_intern s).1 = some s :=
  resolve_mono_runAll (resolve_after_get_or_intern hst s) ss

theorem getOrIntern_resolve_roundtrip_witness :
    StringInterner.new.Inv
    ∧ ((((StringInterner.new.get_or_intern "Elephant").2).runAll
        ["Tiger", "Horse"]).2).resolve
        (StringInterner.new.get_or_intern "Elephant").1 = some "Elephant" :=
  ⟨by decide,
   getOrIntern_resolve_roundtrip StringInterner.new "Elephant" ["Tiger", "Horse"]
     (by decide)⟩

/-- C2: `get_or_intern` is idempotent on content: interning `s`, then running any
further `get_or_intern` calls (no `clear` in between), then interning `s` again
returns the same symbol both times. -/
theorem get_or_intern_idempotent (st : StringInterner) (s : String)
    (ss : List String) :
    ((((st.get_or_intern s).2).runAll ss).2.get_or_intern s).1 =
      (st.get_or_intern s).1 := by
  have h := get_mono_runAll (get_after_get_or_intern st s) ss
  unfold get at h
  rw [get_or_intern_of_found h]

/-- C3: unique strings receive dense indices in strict insertion order: a string
not yet interned receives the current length as its index, and the doc-example
sequence yields the symbol indices 0,1,2,1,1,3,2,1. -/
theorem intern_assigns_dense_indices :
    (∀ st : StringInterner, ∀ s : String,
       st.get s = none → (st.get_or_intern s).1 = st.len)
    ∧ (StringInterner.new.runAll StringInterner.scenarioList).1 =
        [0, 1, 2, 1, 1, 3, 2, 1] := by
  constructor
  · intro st s h
    unfold get at h
    rw [get_or_intern_of_absent h]
  · decide

theorem intern_assigns_dense_indices_witness :
    StringInterner.new.get "Mouse" = none
    ∧ (StringInterner.new.get_or_intern "Mouse").1 = StringInterner.new.len :=
  ⟨by decide, intern_assigns_dense_indices.1 StringInterner.new "Mouse" (by decide)⟩

/-- C6: `clear` resets the interner to the empty state: afterwards `len` is 0,
`is_empty` is true, `resolve` returns `none` for every symbol, and the first
string interned after the clear receives symbol index 0 again. -/
theorem clear_resets (st : StringInterner) (s : String) :
    st.clear.len = 0
    ∧ st.clear.is_empty = true
    ∧ (∀ sym : Nat, st.clear.resolve sym = none)
    ∧ (st.clear.get_or_intern s).1 = 0 := by
  refine ⟨rfl, rfl, ?_, ?_⟩
  · intro sym; simp [clear, resolve]
  · rw [get_or_intern_of_absent (show mapGet st.clear.map s = none from rfl)]
    rfl

/-- C7: when `get_or_intern` is called with content that is already interned,
the interner's state is completely unchanged (same length, stored sequence and
content-to-symbol map) and the existing symbol is returned. -/
theorem get_or_intern_found_frame (st : StringInterner) (s : String) (sym : Nat)
    (h : st.get s = some sym) : st.get_or_intern s = (sym, st) := by
  unfold get at h
  exact get_or_intern_of_found h

/-- C4: after every public operation the interner satisfies: the number of
stored strings equals the number of reverse-map entries, and the reverse map
sends the content of the entry at position `i` to the symbol `i`. -/
theorem public_ops_preserve_invariant (st : StringInterner) (h : st.Reachable) :
    st.map.length = st.values.length
    ∧ ∀ i : Fin st.values.length, mapGet st.map (st.values.get i) = some i.val :=
  ⟨h.inv.1, h.inv.2.1⟩

theorem public_ops_preserve_invariant_witness :
    ((StringInterner.new.get_or_intern "Tiger").2).Reachable
    ∧ (((StringInterner.new.get_or_intern "Tiger").2).map.length =
         ((StringInterner.new.get_or_intern "Tiger").2).values.length
       ∧ ∀ i : Fin ((StringInterner.new.get_or_intern "Tiger").2).values.length,
           mapGet ((StringInterner.new.get_or_intern "Tiger").2).map
             (((StringInterner.new.get_or_intern "Tiger").2).values.get i) =
             some i.val) :=
  ⟨Reachable.get_or_intern _ "Tiger" Reachable.new,
   public_ops_preserve_invariant _ (Reachable.get_or_intern _ "Tiger" Reachable.new)⟩

/-- C5: `resolve sym` is `none` exactly when `sym` is outside `[0, len)` and
returns the stored text otherwise, never panicking (it is a total function);
after the doc-example sequence, `resolve 2 = "Horse"` and `resolve 4 = none`. -/
theorem resolve_none_iff_out_of_range :
    (∀ (st : StringInterner) (sym : Nat),
       (st.resolve sym = none ↔ st.len ≤ sym)
       ∧ ∀ h : sym < st.len, st.resolve sym = some (st.values.get ⟨sym, h⟩))
    ∧ (StringInterner.new.runAll StringInterner.scenarioList).2.resolve 2 =
        some "Horse"
    ∧ (StringInterner.new.runAll StringInterner.scenarioList).2.resolve 4 = none := by
  refine ⟨fun st sym => ⟨List.get?_eq_none, fun h => List.get?_eq_get h⟩, ?_, ?_⟩
  · decide
  · decide

theorem resolve_none_iff_out_of_range_witness :
    ((StringInterner.new.get_or_intern "Horse").2.resolve 0 = none ↔
       (StringInterner.new.get_or_intern "Horse").2.len ≤ 0)
    ∧ (StringInterner.new.get_or_intern "Horse").2.resolve 0 =
        some ((StringInterner.new.get_or_intern "Horse").2.values.get
          ⟨0, by decide⟩) :=
  ⟨(resolve_none_iff_out_of_range.1 (StringInterner.new.get_or_intern "Horse").2 0).1,
   (resolve_none_iff_out_of_range.1 (StringInterner.new.get_or_intern "Horse").2 0).2
     (by decide)⟩

/-- C8: `iter` yields exactly `len` pairs in strict insertion order with no
duplicate symbols (the `i`-th pair is the symbol `i` with the `i`-th interned
string), and `iter_values` yields the same strings in the same order. -/
theorem iter_yields_enumerated_pairs (st : StringInterner) :
    st.iter.length = st.len
    ∧ (∀ i : Nat, st.iter.get? i = (st.values.get? i).map fun v => (i, v))
    ∧ (st.iter.map Prod.fst).Nodup
    ∧ st.iter_values = st.iter.map Prod.snd :=
  ⟨List.enum_length,
   fun i => List.get?_enum st.values i,
   List.nodup_enum_map_fst st.values,
   (List.enum_map_snd st.values).symm⟩

theorem get_or_intern_found_frame_witness :
    ((StringInterner.new.get_or_intern "Tiger").2).get "Tiger" = some 0
    ∧ ((StringInterner.new.get_or_intern "Tiger").2).get_or_intern "Tiger" =
        (0, (StringInterner.new.get_or_intern "Tiger").2) :=
  ⟨by decide,
   get_or_intern_found_frame (StringInterner.new.get_or_intern "Tiger").2 "Tiger" 0
     (by decide)⟩

/-! ## Hasher independence -/

lemma get_or_intern_congr {st1 st2 : StringInterner}
    (hm : st1.map = st2.map) (hv : st1.values = st2.values) (s : String) :
    (st1.get_or_intern s).1 = (st2.get_or_intern s).1
    ∧ ((st1.get_or_intern s).2).map = ((st2.get_or_intern s).2).map
    ∧ ((st1.get_or_intern s).2).values = ((st2.get_or_intern s).2).values := by
  cases hfind : mapGet st1.map s with
  | some sym =>
    have hfind2 : mapGet st2.map s = some sym := by rw [← hm]; exact hfind
    rw [get_or_intern_of_found hfind, get_or_intern_of_found hfind2]
    exact ⟨rfl, hm, hv⟩
  | none =>
    have hfind2 : mapGet st2.map s = none := by rw [← hm]; exact hfind
    rw [get_or_intern_of_absent hfind, get_or_intern_of_absent hfind2]
    have hlen : st1.len = st2.len := by unfold len; rw [hv]
    exact ⟨hlen, by rw [hlen, hm], by rw [hv]⟩

lemma runAll_congr {st1 st2 : StringInterner}
    (hm : st1.map = st2.map) (hv : st1.values = st2.values) (ss : List String) :
    (st1.runAll ss).1 = (st2.runAll ss).1
    ∧ ((st1.runAll ss).2).map = ((st2.runAll ss).2).map
    ∧ ((st1.runAll ss).2).values = ((st2.runAll ss).2).values := by
  induction ss generalizing st1 st2 with
  | nil => exact ⟨rfl, hm, hv⟩
  | cons s ss ih =>
    obtain ⟨h1, h2, h3⟩ := get_or_intern_congr hm hv s
    obtain ⟨g1, g2, g3⟩ := ih h2 h3
    simp only [runAll]
    exact ⟨by rw [h1, g1], g2, g3⟩

/-- C9: two interners compare equal (under the derived structural equality,
whose map component is content equality independent of hash state) if and only
if they have the same count and the same insertion-ordered stored text. -/
theorem interner_eq_iff_same_content (a b : StringInterner)
    (ha : a.Inv) (hb : b.Inv) :
    a.interEq b ↔ (a.len = b.len ∧ a.values = b.values) := by
  constructor
  · rintro ⟨_, hv⟩
    exact ⟨congrArg List.length hv, hv⟩
  · rintro ⟨_, hv⟩
    refine ⟨⟨?_, ?_⟩, hv⟩
    · rw [ha.1, hb.1, hv]
    · intro p hp
      have h1 : a.values.get? p.2 = some p.1 := ha.2.2 p hp
      have h2 : b.values.get? p.2 = some p.1 := by rw [← hv]; exact h1
      exact hb.get?_mapGet h2

theorem interner_eq_iff_same_content_witness :
    ((StringInterner.with_hasher 1).runAll ["a", "b"]).2.Inv
    ∧ ((StringInterner.with_hasher 2).runAll ["a", "b"]).2.Inv
    ∧ (((StringInterner.with_hasher 1).runAll ["a", "b"]).2.interEq
         ((StringInterner.with_hasher 2).runAll ["a", "b"]).2 ↔
       (((StringInterner.with_hasher 1).runAll ["a", "b"]).2.len =
          ((StringInterner.with_hasher 2).runAll ["a", "b"]).2.len
        ∧ ((StringInterner.with_hasher 1).runAll ["a", "b"]).2.values =
            ((StringInterner.with_hasher 2).runAll ["a", "b"]).2.values)) :=
  ⟨by decide, by decide,
   interner_eq_iff_same_content _ _ (by decide) (by decide)⟩

/-- C10: all observable behaviour is independent of the hash configuration: the
same `get_or_intern` sequence applied to interners built with any two hashers
returns the same symbols, and afterwards `get`, `resolve`, `len` and iteration
agree on the two interners. -/
theorem observable_behaviour_hasher_independent (h1 h2 : Nat) (ss : List String) :
    ((StringInterner.with_hasher h1).runAll ss).1 =
      ((StringInterner.with_hasher h2).runAll ss).1
    ∧ (∀ s, (((StringInterner.with_hasher h1).runAll ss).2).get s =
        (((StringInterner.with_hasher h2).runAll ss).2).get s)
    ∧ (∀ sym, (((StringInterner.with_hasher h1).runAll ss).2).resolve sym =
        (((StringInterner.with_hasher h2).runAll ss).2).resolve sym)
    ∧ (((StringInterner.with_hasher h1).runAll ss).2).len =
        (((StringInterner.with_hasher h2).runAll ss).2).len
    ∧ (((StringInterner.with_hasher h1).runAll ss).2).iter =
        (((StringInterner.with_hasher h2).runAll ss).2).iter := by
  obtain ⟨hsym, hmap, hval⟩ :=
    @runAll_congr (with_hasher h1) (with_hasher h2) rfl rfl ss
  refine ⟨hsym, ?_, ?_, ?_, ?_⟩
  · intro s; unfold get; rw [hmap]
  · intro sym; unfold resolve; rw [hval]
  · unfold len; rw [hval]
  · unfold iter; rw [hval]

end StringInterner
